import Mathlib

/- Shallow embedding of src/log_buffer.py (Pythonator log-ingestion core).

   Text is modelled as `List Char`.  The timestamp produced by
   `datetime.now().strftime(...)` is an explicit parameter `ts`; the
   filesystem, which Python accesses through `Path`, is modelled explicitly
   (an `FSView` for the reader side, a `String -> List Char` map for the
   async writer side), and every `try ... except` is modelled by an explicit
   Boolean saying whether the guarded I/O succeeds. -/

/-- First pass of line-ending normalization: replace every CR LF pair by LF. -/
def collapseCRLF : List Char → List Char
  | '\r' :: '\n' :: rest => '\n' :: collapseCRLF rest
  | c :: rest => c :: collapseCRLF rest
  | [] => []

/-- Modelled from the spec: `normalizeText` models `normalize` from the
`config` module (which is not under `src/`); it converts all line endings
(CR LF and bare CR) to LF, like Python
`text.replace(chr 13 ++ chr 10, chr 10).replace(chr 13, chr 10)`. -/
def normalizeText (l : List Char) : List Char :=
  (collapseCRLF l).map (fun c => if c = '\r' then '\n' else c)

/-- Modelled from the spec: `strip_ansi` from the `config` module removes ANSI
escape sequences (ESC `[` parameters final-letter) from the text.  State 0
scans normally, state 1 has just seen ESC, state 2 is inside a CSI sequence. -/
def stripAnsiAux : Nat → List Char → List Char
  | _, [] => []
  | 0, c :: rest => if c = '\x1b' then stripAnsiAux 1 rest else c :: stripAnsiAux 0 rest
  | 1, c :: rest => if c = '[' then stripAnsiAux 2 rest else c :: stripAnsiAux 0 rest
  | 2, c :: rest => if c.isAlpha then stripAnsiAux 0 rest else stripAnsiAux 2 rest
  | _ + 3, _ :: _ => []

/-- Modelled from the spec: `strip_ansi` entry point. -/
def strip_ansi (l : List Char) : List Char := stripAnsiAux 0 l

/-- Python `part.rstrip` with the newline character: remove all trailing LF. -/
def rstripNewlines (l : List Char) : List Char :=
  (l.reverse.dropWhile (fun c => c == '\n')).reverse

/-- The characters Python `str.splitlines` treats as line boundaries (besides
the CR LF pair): LF, CR, VT, FF, FS, GS, RS, NEL, LINE SEPARATOR and
PARAGRAPH SEPARATOR. -/
def isLineBreak (c : Char) : Bool :=
  c == '\n' || c == '\r' || c == '\x0b' || c == '\x0c' || c == '\x1c' ||
  c == '\x1d' || c == '\x1e' || c == '\x85' || c == '\u2028' || c == '\u2029'

/-- Python `data.splitlines(keepends=True)`: split after every line-boundary
character.  The CR LF pair (which Python treats as one terminator) is not
special-cased here because both call sites split normalized text, which
contains no CR; on CR-free input this agrees with Python exactly. -/
def splitlinesKeepends : List Char → List (List Char)
  | [] => []
  | c :: rest =>
    if isLineBreak c then [c] :: splitlinesKeepends rest
    else
      match splitlinesKeepends rest with
      | [] => [[c]]
      | s :: ss => (c :: s) :: ss

/-- Remove one trailing line terminator from a segment, as Python
`splitlines()` does when keepends is false (CR-free input, see
`splitlinesKeepends`). -/
def dropLineBreakEnd (s : List Char) : List Char :=
  match s.reverse with
  | c :: rest => if isLineBreak c then rest.reverse else s
  | [] => s

/-- Python `data.splitlines()` (without keepends). -/
def splitlinesPlain (d : List Char) : List (List Char) :=
  (splitlinesKeepends d).map dropLineBreakEnd

/-- Specification-side canonical splitter: decompose a character list into the
maximal list of newline-terminated line contents followed by the trailing
fragment that has no newline.  Used to state and prove properties of the
ingestion path; not itself part of the source. -/
def splitNLTail : List Char → List (List Char) × List Char
  | [] => ([], [])
  | c :: rest =>
    if c = '\n' then ([] :: (splitNLTail rest).1, (splitNLTail rest).2)
    else
      match splitNLTail rest with
      | ([], t) => ([], c :: t)
      | (l :: ls, t) => ((c :: l) :: ls, t)

/-- Join line contents back into a character stream, terminating each line
with LF. -/
def joinNL (ls : List (List Char)) : List Char :=
  (ls.map (fun l => l ++ ['\n'])).flatten

/-- Lines 127-131 of `LogBuffer.append`: split `data` into newline-terminated
parts, pop a trailing incomplete fragment (a last part that does not end with
LF), and strip the newlines off the complete parts.  Returns the pair
(complete line contents, new pending fragment). -/
def splitData (data : List Char) : List (List Char) × List Char :=
  let parts := splitlinesKeepends data
  match parts.getLast? with
  | some last =>
    if last.getLast? = some '\n' then (parts.map rstripNewlines, [])
    else (parts.dropLast.map rstripNewlines, last)
  | none => ([], [])

/-- The ingestion-splitting portion of `LogBuffer.append` (source lines
113-131): empty input is a no-op; otherwise normalizeText the chunk, prepend the
pending fragment, and either buffer the whole combination (no newline yet) or
split off the complete line contents. -/
def splitComplete (pending text : List Char) : List (List Char) × List Char :=
  if text = [] then ([], pending)
  else
    let data := pending ++ normalizeText text
    if '\n' ∈ data then splitData data else ([], data)

/-- State of one `LogBuffer`: the ring of rendered display lines
(`self.lines`, a deque with `maxlen = MAX_LOG_LINES`), the memoized file parse
(`self._cache`), the mtime it was captured at (`self._mtime`), and the pending
incomplete fragment (`self._partial`). -/
structure LogBuffer where
  lines : List (List Char)
  cache : Option (List (List Char))
  mtime : Nat
  pending : List Char

/-- A fresh `LogBuffer` as built by `__init__`. -/
def initLB : LogBuffer := { lines := [], cache := none, mtime := 0, pending := [] }

/-- `collections.deque(maxlen := cap)` append: appending beyond capacity
evicts the oldest element from the front. -/
def dequeAppend (cap : Nat) (d : List α) (x : α) : List α :=
  (d ++ [x]).drop ((d ++ [x]).length - cap)

/-- The escape sequence `ESC [ 9 4 m` (bright blue) used by the source. -/
def esc94 : List Char := "\x1b[94m".data

/-- The escape sequence `ESC [ 0 m` (reset) used by the source. -/
def esc0 : List Char := "\x1b[0m".data

/-- Display rendering of one complete line (source line 136). -/
def renderDisp (ts content : List Char) : List Char :=
  '[' :: (esc94 ++ ts ++ esc0 ++ (']' :: ' ' :: (content ++ ['\n'])))

/-- File rendering of one complete line (source line 139). -/
def renderFile (ts content : List Char) : List Char :=
  '[' :: (ts ++ (']' :: ' ' :: (strip_ansi content ++ ['\n'])))

/-- `LogBuffer.append` (source lines 113-149).  `cap` is `MAX_LOG_LINES` and
`ts` the wall-clock timestamp string of this call; the result is the pair
(display text, file text) together with the new buffer state.  The submission
of the file text to the async writer is modelled separately
(`AsyncFileWriter.write`). -/
def LogBuffer.append (cap : Nat) (ts : List Char) (b : LogBuffer) (text : List Char) :
    (List Char × List Char) × LogBuffer :=
  if text = [] then (([], []), b)
  else
    let data := b.pending ++ normalizeText text
    if '\n' ∈ data then
      let contents := (splitData data).1
      let newLines := contents.foldl (fun r c => dequeAppend cap r (renderDisp ts c)) b.lines
      (((contents.map (renderDisp ts)).flatten, (contents.map (renderFile ts)).flatten),
        { b with lines := newLines, pending := (splitData data).2, cache := none })
    else (([], []), { b with pending := data })

/-- `LogBuffer.get_recent` (source lines 151-152). -/
def LogBuffer.get_recent (b : LogBuffer) : List Char := b.lines.flatten

/-- Observable filesystem state of the backing file at the time of one
historical-read call: whether the file exists, whether `stat` succeeds,
whether `read_text` succeeds, the file content and its mtime. -/
structure FSView where
  present : Bool
  statOk : Bool
  readOk : Bool
  content : List Char
  mtime : Nat

/-- The refresh arm of `LogBuffer._read_file` (source lines 161-165 plus the
`except` fallback): read and normalizeText the file, split into lines, memoize. -/
def LogBuffer.read_fresh (fs : FSView) (b : LogBuffer) : List (List Char) × LogBuffer :=
  if fs.readOk then
    let c := splitlinesPlain (normalizeText fs.content)
    (c, { b with cache := some c, mtime := fs.mtime })
  else (b.lines.map rstripNewlines, b)

/-- `LogBuffer._read_file` (source lines 154-167).  Note the Python truthiness
test `if self._cache and mtime == self._mtime`: an empty cached list does not
count as a cache hit. -/
def LogBuffer.read_file (fs : FSView) (b : LogBuffer) : List (List Char) × LogBuffer :=
  if !fs.present then (b.lines.map rstripNewlines, b)
  else if !fs.statOk then (b.lines.map rstripNewlines, b)
  else
    match b.cache with
    | some c => if !c.isEmpty && (fs.mtime == b.mtime) then (c, b) else b.read_fresh fs
    | none => b.read_fresh fs

/-- `LogBuffer.line_count` (source lines 169-170). -/
def LogBuffer.line_count (fs : FSView) (b : LogBuffer) : Nat :=
  (b.read_file fs).1.length

/-- `LogBuffer._colorize` (source lines 172-177): if the line starts with `[`
and contains `]` at a positive index, recolor the bracketed prefix. -/
def colorize (line : List Char) : List Char :=
  if line.head? = some '[' then
    match line.findIdx? (fun c => c == ']') with
    | some bIdx =>
      if 0 < bIdx then
        '[' :: (esc94 ++ ((line.drop 1).take (bIdx - 1)) ++ esc0 ++ (']' :: line.drop (bIdx + 1)))
      else line
    | none => line
  else line

/-- Python substring containment `p in l` for character lists. -/
def isSubstr (p : List Char) : List Char → Bool
  | [] => p.isEmpty
  | c :: rest => p.isPrefixOf (c :: rest) || isSubstr p rest

/-- `LogBuffer.search` (source lines 179-184) applied to the historical line
list delivered by `_read_file`. -/
def searchLines (lines : List (List Char)) (pat : List Char) : List Char × Nat :=
  let p := pat.map Char.toLower
  let hits := lines.filter (fun l => isSubstr p (l.map Char.toLower))
  if hits.isEmpty then ([], 0)
  else ((hits.map (fun l => colorize l ++ ['\n'])).flatten, hits.length)

/-- `LogBuffer.load_chunk` (source lines 186-194) applied to the historical
line list delivered by `_read_file`; `e` (the exclusive end index) and `size`
are Python ints. -/
def loadChunkLines (lines : List (List Char)) (e size : Int) : List Char × Int :=
  if lines = [] ∨ e ≤ 0 then ([], 0)
  else
    let start := max 0 (e - size)
    let chunk := (lines.take e.toNat).drop start.toNat
    if chunk = [] then ([], 0)
    else ((chunk.map (fun l => colorize l ++ ['\n'])).flatten, start)

/-- `LogBuffer.clear` (source lines 196-202): empty the ring, drop the cache,
truncate the backing file; `truncOk` says whether `write_text` succeeds (its
failure is swallowed).  The pending fragment is not touched by the source.
Returns the new state together with the new backing-file content. -/
def LogBuffer.clear (truncOk : Bool) (b : LogBuffer) (fileContent : List Char) :
    LogBuffer × List Char :=
  ({ b with lines := [], cache := none }, if truncOk then [] else fileContent)

/-- One public `LogBuffer` operation together with the environment (timestamp,
filesystem view, truncation success) it observes. -/
inductive LBOp where
  | appendOp (ts text : List Char)
  | clearOp (truncOk : Bool)
  | getRecentOp
  | searchOp (fs : FSView) (pat : List Char)
  | loadChunkOp (fs : FSView) (e size : Int)
  | lineCountOp (fs : FSView)

/-- The state transition of one `LogBuffer` operation. -/
def applyOp (cap : Nat) (b : LogBuffer) : LBOp → LogBuffer
  | .appendOp ts text => (b.append cap ts text).2
  | .clearOp truncOk => (b.clear truncOk []).1
  | .getRecentOp => b
  | .searchOp fs _ => (b.read_file fs).2
  | .loadChunkOp fs _ _ => (b.read_file fs).2
  | .lineCountOp fs => (b.read_file fs).2

/-- A whole run of `LogBuffer` operations from the freshly built state. -/
def applyOps (cap : Nat) (ops : List LBOp) : LogBuffer :=
  ops.foldl (applyOp cap) initLB

/-- `_AsyncFileWriter` state: the bounded queue of (path, text) jobs and the
global drop counter `self._dropped`. -/
structure AsyncFileWriter where
  q : List (String × List Char)
  dropped : Nat

/-- `_AsyncFileWriter.write` (source lines 33-41); `cap` is `max_queue`
(10000 by default).  `queue.Queue.put_nowait` raises `queue.Full` exactly when
the queue holds at least `max_queue` items, and the handler counts the drop. -/
def AsyncFileWriter.write (cap : Nat) (w : AsyncFileWriter) (p : String) (t : List Char) :
    AsyncFileWriter :=
  if t = [] then w
  else if cap ≤ w.q.length then { w with dropped := w.dropped + 1 }
  else { w with q := w.q ++ [(p, t)] }

/-- The drop annotation written by the worker (source line 61). -/
def annotLine (n : Nat) : List Char :=
  ("[log-writer] dropped " ++ toString n ++ " chunks due to backpressure\n").data

/-- One iteration of the worker loop `_AsyncFileWriter._run` processing one
dequeued job (source lines 50-71).  `writeOk` says whether the first append
succeeds and `annotOk` whether the annotation append succeeds; both failures
are swallowed.  On a successful write the counter is read, reset, and the
annotation is appended to the file just written. -/
def AsyncFileWriter.run_once (writeOk annotOk : Bool) (w : AsyncFileWriter)
    (fsw : String → List Char) : AsyncFileWriter × (String → List Char) :=
  match w.q with
  | [] => (w, fsw)
  | (p, t) :: rest =>
    if writeOk then
      let fs1 := fun s => if s = p then fsw p ++ t else fsw s
      if 0 < w.dropped then
        let fs2 := if annotOk
          then (fun s => if s = p then fs1 p ++ annotLine w.dropped else fs1 s)
          else fs1
        (⟨rest, 0⟩, fs2)
      else (⟨rest, w.dropped⟩, fs1)
    else (⟨rest, w.dropped⟩, fsw)

/-- A concrete writer trace: with capacity 1, a job for file B is enqueued, a
job for file A is dropped (queue full), the worker processes B's job (and, per
the source, flushes the drop annotation into B), then a job for A is enqueued
and processed.  Returns the final writer state and file map. -/
def c2Trace : AsyncFileWriter × (String → List Char) :=
  let w2 := ((AsyncFileWriter.mk [] 0).write 1 "B" "b\n".data).write 1 "A" "a\n".data
  let s1 := AsyncFileWriter.run_once true true w2 (fun _ => [])
  AsyncFileWriter.run_once true true (s1.1.write 1 "A" "a2\n".data) s1.2

/-- One ingestion step for chunk-boundary reasoning: run the splitting portion
of `append` on one chunk and accumulate the produced line contents. -/
def feedStep (st : List (List Char) × List Char) (text : List Char) :
    List (List Char) × List Char :=
  ((st.1 ++ (splitComplete st.2 text).1), (splitComplete st.2 text).2)

/-- Feed a sequence of chunks through `append`'s splitting logic starting from
an empty pending fragment; returns all produced line contents and the final
pending fragment. -/
def feedContents (chunks : List (List Char)) : List (List Char) × List Char :=
  chunks.foldl feedStep ([], [])

/-! ### Helper lemmas about the splitting machinery -/

theorem collapseCRLF_eq_self {l : List Char} (h : '\r' ∉ l) : collapseCRLF l = l := by
  induction l with
  | nil => rfl
  | cons c rest ih =>
    have hc : ¬ c = '\r' := fun hh => h (hh ▸ List.mem_cons_self c rest)
    have hr : '\r' ∉ rest := fun hm => h (List.mem_cons_of_mem c hm)
    cases rest with
    | nil => simp [collapseCRLF]
    | cons c2 rest2 => simp [collapseCRLF, hc, ih hr]

theorem normalizeText_eq_self {l : List Char} (h : '\r' ∉ l) : normalizeText l = l := by
  rw [normalizeText, collapseCRLF_eq_self h]
  induction l with
  | nil => rfl
  | cons c rest ih =>
    have hc : ¬ c = '\r' := fun hh => h (hh ▸ List.mem_cons_self c rest)
    have hr : '\r' ∉ rest := fun hm => h (List.mem_cons_of_mem c hm)
    simp [hc, ih hr]

theorem joinNL_nil : joinNL [] = [] := rfl

theorem joinNL_cons (l : List Char) (ls : List (List Char)) :
    joinNL (l :: ls) = l ++ '\n' :: joinNL ls := by
  simp [joinNL]

theorem joinNL_append (a b : List (List Char)) :
    joinNL (a ++ b) = joinNL a ++ joinNL b := by
  simp [joinNL]

theorem dropWhile_nl_eq_self {m : List Char} (h : '\n' ∉ m) :
    m.dropWhile (fun c => c == '\n') = m := by
  cases m with
  | nil => rfl
  | cons c rest =>
    have hc : ¬ c = '\n' := fun hh => h (hh ▸ List.mem_cons_self c rest)
    rw [List.dropWhile_cons, if_neg (by simpa using hc)]

theorem rstripNewlines_concat {l : List Char} (h : '\n' ∉ l) :
    rstripNewlines (l ++ ['\n']) = l := by
  have hrev : '\n' ∉ l.reverse := by simpa using h
  simp only [rstripNewlines, List.reverse_append, List.reverse_cons, List.reverse_nil,
    List.nil_append, List.singleton_append, List.dropWhile_cons]
  rw [if_pos (by simp), dropWhile_nl_eq_self hrev, List.reverse_reverse]

theorem splitNLTail_cons_nl (rest : List Char) :
    splitNLTail ('\n' :: rest) = ([] :: (splitNLTail rest).1, (splitNLTail rest).2) := by
  simp [splitNLTail]

theorem splitNLTail_nil_of_not_mem {t : List Char} (h : '\n' ∉ t) :
    splitNLTail t = ([], t) := by
  induction t with
  | nil => rfl
  | cons c rest ih =>
    have hc : ¬ c = '\n' := fun hh => h (hh ▸ List.mem_cons_self c rest)
    have hr : '\n' ∉ rest := fun hm => h (List.mem_cons_of_mem c hm)
    simp only [splitNLTail, if_neg hc, ih hr]

theorem splitNLTail_line {l : List Char} (m : List Char) (h : '\n' ∉ l) :
    splitNLTail (l ++ '\n' :: m) = (l :: (splitNLTail m).1, (splitNLTail m).2) := by
  induction l with
  | nil => simp [splitNLTail]
  | cons c l' ih =>
    have hc : ¬ c = '\n' := fun hh => h (hh ▸ List.mem_cons_self c l')
    have hl' : '\n' ∉ l' := fun hm => h (List.mem_cons_of_mem c hm)
    simp only [List.cons_append, splitNLTail, if_neg hc, List.append_eq, ih hl']

theorem splitNLTail_joinNL {ls : List (List Char)} {t : List Char}
    (hl : ∀ l ∈ ls, '\n' ∉ l) (ht : '\n' ∉ t) :
    splitNLTail (joinNL ls ++ t) = (ls, t) := by
  induction ls with
  | nil => simpa [joinNL] using splitNLTail_nil_of_not_mem ht
  | cons l ls ih =>
    have h1 : '\n' ∉ l := hl l (List.mem_cons_self l ls)
    have h2 : ∀ x ∈ ls, '\n' ∉ x := fun x hx => hl x (List.mem_cons_of_mem l hx)
    rw [joinNL_cons, List.append_assoc, List.cons_append,
      splitNLTail_line (joinNL ls ++ t) h1, ih h2]

theorem splitNLTail_free (d : List Char) :
    (∀ l ∈ (splitNLTail d).1, '\n' ∉ l) ∧ '\n' ∉ (splitNLTail d).2 := by
  induction d with
  | nil => simp [splitNLTail]
  | cons c rest ih =>
    by_cases hc : c = '\n'
    · subst hc
      simp only [splitNLTail, if_pos rfl]
      refine ⟨?_, ih.2⟩
      intro l hlmem
      rcases List.mem_cons.mp hlmem with h | h
      · subst h; simp
      · exact ih.1 l h
    · simp only [splitNLTail, if_neg hc]
      rcases hsp : splitNLTail rest with ⟨ls, t⟩
      rw [hsp] at ih
      cases ls with
      | nil =>
        refine ⟨by simp, ?_⟩
        intro hmem
        rcases List.mem_cons.mp hmem with h | h
        · exact hc h.symm
        · exact ih.2 h
      | cons l ls' =>
        refine ⟨?_, ih.2⟩
        intro x hxmem
        rcases List.mem_cons.mp hxmem with h | h
        · subst h
          intro hmem
          rcases List.mem_cons.mp hmem with h | h
          · exact hc h.symm
          · exact ih.1 l (List.mem_cons_self l ls') h
        · exact ih.1 x (List.mem_cons_of_mem l h)

theorem joinNL_splitNLTail (d : List Char) :
    joinNL (splitNLTail d).1 ++ (splitNLTail d).2 = d := by
  induction d with
  | nil => rfl
  | cons c rest ih =>
    by_cases hc : c = '\n'
    · subst hc
      rw [splitNLTail_cons_nl]
      simp only [joinNL_cons, List.nil_append, List.cons_append]
      rw [ih]
    · simp only [splitNLTail, if_neg hc]
      rcases hsp : splitNLTail rest with ⟨ls, t⟩
      rw [hsp] at ih
      cases ls with
      | nil => simpa [joinNL] using ih
      | cons l ls' =>
        simp only [joinNL_cons] at ih ⊢
        simp [← ih]

theorem splitNLTail_cons_of_ne {c : Char} (hc : ¬ c = '\n') (rest : List Char) :
    splitNLTail (c :: rest) =
      (match splitNLTail rest with
       | ([], t) => ([], c :: t)
       | (l :: ls, t) => ((c :: l) :: ls, t)) := by
  simp [splitNLTail, hc]

theorem splitlinesKeepends_cons_break {c : Char} (hb : isLineBreak c = true)
    (rest : List Char) :
    splitlinesKeepends (c :: rest) = [c] :: splitlinesKeepends rest := by
  simp [splitlinesKeepends, hb]

theorem splitlinesKeepends_cons_nl (rest : List Char) :
    splitlinesKeepends ('\n' :: rest) = ['\n'] :: splitlinesKeepends rest :=
  splitlinesKeepends_cons_break (by decide) rest

theorem splitlinesKeepends_cons_of_not_break {c : Char} (hc : isLineBreak c = false)
    (rest : List Char) :
    splitlinesKeepends (c :: rest) =
      (match splitlinesKeepends rest with
       | [] => [[c]]
       | s :: ss => (c :: s) :: ss) := by
  simp [splitlinesKeepends, hc]

theorem splitlinesKeepends_eq {d : List Char}
    (hb : ∀ c ∈ d, isLineBreak c = true → c = '\n') :
    splitlinesKeepends d = (splitNLTail d).1.map (fun l => l ++ ['\n']) ++
      (if (splitNLTail d).2 = [] then [] else [(splitNLTail d).2]) := by
  induction d with
  | nil => rfl
  | cons c rest ih =>
    have hbrest : ∀ x ∈ rest, isLineBreak x = true → x = '\n' :=
      fun x hx => hb x (List.mem_cons_of_mem c hx)
    by_cases hc : c = '\n'
    · subst hc
      rw [splitlinesKeepends_cons_nl, splitNLTail_cons_nl, ih hbrest]
      simp
    · have hnb : isLineBreak c = false := by
        cases hbool : isLineBreak c
        · rfl
        · exact absurd (hb c (List.mem_cons_self c rest) hbool) hc
      rw [splitlinesKeepends_cons_of_not_break hnb, splitNLTail_cons_of_ne hc, ih hbrest]
      rcases hsp : splitNLTail rest with ⟨ls, t⟩
      cases ls with
      | nil =>
        by_cases ht : t = []
        · subst ht; simp
        · simp [ht]
      | cons l ls' => simp

theorem splitlinesKeepends_dropLast_free (d : List Char) :
    ∀ s ∈ splitlinesKeepends d, '\n' ∉ s.dropLast := by
  induction d with
  | nil => simp [splitlinesKeepends]
  | cons c rest ih =>
    intro s hs
    by_cases hbr : isLineBreak c = true
    · rw [splitlinesKeepends_cons_break hbr] at hs
      rcases List.mem_cons.mp hs with h | h
      · subst h
        simp
      · exact ih s h
    · have hnb : isLineBreak c = false := by
        revert hbr
        cases isLineBreak c <;> simp
      have hcn : ¬ c = '\n' := by
        intro h
        subst h
        simp [isLineBreak] at hnb
      rw [splitlinesKeepends_cons_of_not_break hnb] at hs
      rcases hsp : splitlinesKeepends rest with _ | ⟨s0, ss⟩
      · rw [hsp] at hs
        simp at hs
        subst hs
        simp
      · rw [hsp] at hs
        simp only at hs
        rcases List.mem_cons.mp hs with h | h
        · subst h
          have hs0 : '\n' ∉ s0.dropLast :=
            ih s0 (by rw [hsp]; exact List.mem_cons_self s0 ss)
          cases s0 with
          | nil => simp
          | cons a as =>
            rw [List.dropLast_cons₂]
            intro hmem
            rcases List.mem_cons.mp hmem with h2 | h2
            · exact hcn h2.symm
            · exact hs0 h2
        · exact ih s (by rw [hsp]; exact List.mem_cons_of_mem s0 h)

theorem splitNLTail_fst_ne_nil {d : List Char} (h : '\n' ∈ d) : (splitNLTail d).1 ≠ [] := by
  intro hnil
  have hE := joinNL_splitNLTail d
  rw [hnil] at hE
  simp only [joinNL_nil, List.nil_append] at hE
  have hfree := (splitNLTail_free d).2
  rw [hE] at hfree
  exact hfree h

theorem mem_of_getLast?_eq {α : Type _} {l : List α} {a : α} (h : l.getLast? = some a) :
    a ∈ l := by
  rcases List.eq_nil_or_concat l with rfl | ⟨L, b, rfl⟩
  · simp at h
  · simp only [List.concat_eq_append, List.getLast?_concat] at h
    injection h with h
    subst h
    simp [List.concat_eq_append]

theorem map_rstrip_map_nl {ls : List (List Char)} (h : ∀ l ∈ ls, '\n' ∉ l) :
    (ls.map (fun l => l ++ ['\n'])).map rstripNewlines = ls := by
  induction ls with
  | nil => rfl
  | cons l ls ih =>
    have h1 : '\n' ∉ l := h l (List.mem_cons_self l ls)
    have h2 : ∀ x ∈ ls, '\n' ∉ x := fun x hx => h x (List.mem_cons_of_mem l hx)
    simp only [List.map_cons, rstripNewlines_concat h1, ih h2]

theorem getLast?_map_nl {ls : List (List Char)} (hne : ls ≠ []) :
    ∃ l, ((ls.map (fun x => x ++ ['\n'])).getLast? = some (l ++ ['\n']) ∧ l ∈ ls) := by
  rcases List.eq_nil_or_concat ls with rfl | ⟨L, lst, rfl⟩
  · exact absurd rfl hne
  · refine ⟨lst, ?_, by simp [List.concat_eq_append]⟩
    simp only [List.concat_eq_append, List.map_append, List.map_cons, List.map_nil,
      List.getLast?_concat]

theorem splitData_eq {d : List Char} (h : '\n' ∈ d)
    (hb : ∀ c ∈ d, isLineBreak c = true → c = '\n') :
    splitData d = splitNLTail d := by
  have hfree1 := (splitNLTail_free d).1
  have hfree2 := (splitNLTail_free d).2
  have hne := splitNLTail_fst_ne_nil h
  have hK := splitlinesKeepends_eq hb
  by_cases ht : (splitNLTail d).2 = []
  · rw [ht] at hK
    have hK' : splitlinesKeepends d = (splitNLTail d).1.map (fun l => l ++ ['\n']) := by
      simpa using hK
    obtain ⟨l, hl, hlm⟩ := getLast?_map_nl hne
    have hsd : splitData d = ((splitNLTail d).1, []) := by
      simp [splitData, hK', hl, List.getLast?_concat, map_rstrip_map_nl hfree1]
    rw [hsd, ← ht]
  · rw [if_neg ht] at hK
    have hlast : (splitlinesKeepends d).getLast? = some (splitNLTail d).2 := by
      rw [hK, ← List.concat_eq_append, List.concat_eq_append, List.getLast?_concat]
    have hcond : ¬ ((splitNLTail d).2.getLast? = some '\n') := by
      intro hcon
      exact hfree2 (mem_of_getLast?_eq hcon)
    have hdrop : (splitlinesKeepends d).dropLast = (splitNLTail d).1.map (fun l => l ++ ['\n']) := by
      rw [hK, List.dropLast_concat]
    simp only [splitData, hlast, if_neg hcond, hdrop, map_rstrip_map_nl hfree1]

theorem splitData_snd_nl_free (d : List Char) : '\n' ∉ (splitData d).2 := by
  simp only [splitData]
  rcases hL : (splitlinesKeepends d).getLast? with _ | last
  · simp
  · simp only
    by_cases hend : last.getLast? = some '\n'
    · simp [hend]
    · simp only [if_neg hend]
      have hmem := mem_of_getLast?_eq hL
      have hfree := splitlinesKeepends_dropLast_free d last hmem
      intro hin
      rcases List.eq_nil_or_concat last with rfl | ⟨L, x, rfl⟩
      · simp at hin
      · rw [List.concat_eq_append] at hin hend hfree
        rcases List.mem_append.mp hin with h | h
        · rw [List.dropLast_concat] at hfree
          exact hfree h
        · simp only [List.mem_singleton] at h
          subst h
          exact hend (List.getLast?_concat L)

theorem splitComplete_eq {pending text : List Char} (hp : '\n' ∉ pending)
    (ht : '\r' ∉ text)
    (hb : ∀ c ∈ pending ++ text, isLineBreak c = true → c = '\n') :
    splitComplete pending text = splitNLTail (pending ++ text) := by
  by_cases h0 : text = []
  · subst h0
    simp only [splitComplete, if_pos rfl, List.append_nil]
    exact (splitNLTail_nil_of_not_mem hp).symm
  · simp only [splitComplete, if_neg h0, normalizeText_eq_self ht]
    by_cases hnl : '\n' ∈ pending ++ text
    · simp only [if_pos hnl]
      exact splitData_eq hnl hb
    · simp only [if_neg hnl]
      exact (splitNLTail_nil_of_not_mem hnl).symm

theorem feed_inv (chunks : List (List Char)) :
    ∀ acc p, (∀ c ∈ p, isLineBreak c = false) → (∀ ch ∈ chunks, '\r' ∉ ch) →
      (∀ ch ∈ chunks, ∀ c ∈ ch, isLineBreak c = true → c = '\n') →
      (∀ l ∈ acc, '\n' ∉ l) →
      joinNL (chunks.foldl feedStep (acc, p)).1 ++ (chunks.foldl feedStep (acc, p)).2
          = joinNL acc ++ p ++ chunks.flatten
      ∧ (∀ c ∈ (chunks.foldl feedStep (acc, p)).2, isLineBreak c = false)
      ∧ ∀ l ∈ (chunks.foldl feedStep (acc, p)).1, '\n' ∉ l := by
  induction chunks with
  | nil =>
    intro acc p hp _ _ hacc
    exact ⟨by simp, hp, hacc⟩
  | cons c cs ih =>
    intro acc p hp hr hbk hacc
    have hrc : '\r' ∉ c := hr c (List.mem_cons_self c cs)
    have hrcs : ∀ x ∈ cs, '\r' ∉ x := fun x hx => hr x (List.mem_cons_of_mem c hx)
    have hbkc : ∀ x ∈ c, isLineBreak x = true → x = '\n' := hbk c (List.mem_cons_self c cs)
    have hbkcs : ∀ ch ∈ cs, ∀ x ∈ ch, isLineBreak x = true → x = '\n' :=
      fun ch hch => hbk ch (List.mem_cons_of_mem c hch)
    have hpnl : '\n' ∉ p := by
      intro hin
      have hx := hp '\n' hin
      simp [isLineBreak] at hx
    have hbpc : ∀ x ∈ p ++ c, isLineBreak x = true → x = '\n' := by
      intro x hx hbx
      rcases List.mem_append.mp hx with h | h
      · exact absurd (hp x h) (by simp [hbx])
      · exact hbkc x h hbx
    rw [List.foldl_cons]
    have hstep : feedStep (acc, p) c
        = (acc ++ (splitNLTail (p ++ c)).1, (splitNLTail (p ++ c)).2) := by
      simp [feedStep, splitComplete_eq hpnl hrc hbpc]
    rw [hstep]
    have hp' : ∀ x ∈ (splitNLTail (p ++ c)).2, isLineBreak x = false := by
      intro x hx
      have hxin : x ∈ p ++ c := by
        have hE := joinNL_splitNLTail (p ++ c)
        rw [← hE]
        exact List.mem_append_right _ hx
      by_contra hfalse
      have hxtrue : isLineBreak x = true := by
        revert hfalse
        cases isLineBreak x <;> simp
      have hxn : x = '\n' := hbpc x hxin hxtrue
      subst hxn
      exact (splitNLTail_free (p ++ c)).2 hx
    have hacc' : ∀ l ∈ acc ++ (splitNLTail (p ++ c)).1, '\n' ∉ l := by
      intro l hl
      rcases List.mem_append.mp hl with h | h
      · exact hacc l h
      · exact (splitNLTail_free (p ++ c)).1 l h
    obtain ⟨h1, h2, h3⟩ := ih _ _ hp' hrcs hbkcs hacc'
    refine ⟨?_, h2, h3⟩
    rw [h1, joinNL_append, List.flatten_cons]
    have hE := joinNL_splitNLTail (p ++ c)
    simp only [List.append_assoc]
    have hmid : joinNL (splitNLTail (p ++ c)).1 ++ ((splitNLTail (p ++ c)).2 ++ cs.flatten)
        = p ++ (c ++ cs.flatten) := by
      rw [← List.append_assoc, hE, List.append_assoc]
    rw [hmid]

theorem mem_joinNL {c : Char} {ls : List (List Char)} (h : c ∈ joinNL ls) :
    (∃ l ∈ ls, c ∈ l) ∨ c = '\n' := by
  rcases List.mem_flatten.mp h with ⟨s, hs, hcs⟩
  rcases List.mem_map.mp hs with ⟨l, hl, rfl⟩
  rcases List.mem_append.mp hcs with h1 | h1
  · exact Or.inl ⟨l, hl, h1⟩
  · simp only [List.mem_singleton] at h1
    exact Or.inr h1

/-- Claim C1: chunk-boundary invariance of ingestion.  For every sequence of
`append` calls (modelled by their splitting logic `splitComplete`, which
determines the complete line contents each call produces, ignoring timestamps
and coloring) whose concatenated input forms well-formed newline-terminated
lines `joinNL ls`, the produced line contents are exactly `ls` and no pending
fragment remains, regardless of how the input was chunked.  Chunks are
restricted to carriage-return-free text so that line-ending normalization is
the identity, and the line contents contain none of the characters Python
`splitlines` treats as line boundaries (otherwise they would not be lines). -/
theorem c1_chunk_boundary_invariance (chunks ls : List (List Char))
    (hr : ∀ ch ∈ chunks, '\r' ∉ ch)
    (hl : ∀ l ∈ ls, ∀ c ∈ l, isLineBreak c = false)
    (hcat : chunks.flatten = joinNL ls) :
    feedContents chunks = (ls, []) := by
  have hchunks : ∀ ch ∈ chunks, ∀ c ∈ ch, isLineBreak c = true → c = '\n' := by
    intro ch hch c hc hbreak
    have hmem : c ∈ chunks.flatten := List.mem_flatten.mpr ⟨ch, hch, hc⟩
    rw [hcat] at hmem
    rcases mem_joinNL hmem with ⟨l, hlmem, hcl⟩ | hceq
    · exact absurd (hl l hlmem c hcl) (by simp [hbreak])
    · exact hceq
  have hlnl : ∀ l ∈ ls, '\n' ∉ l := by
    intro l hlm hin
    have hx := hl l hlm '\n' hin
    simp [isLineBreak] at hx
  obtain ⟨h1, h2, h3⟩ :=
    feed_inv chunks [] [] (by simp) hr hchunks (by simp)
  have hFC : feedContents chunks = chunks.foldl feedStep ([], []) := rfl
  rw [← hFC] at h1 h2 h3
  have h2' : '\n' ∉ (feedContents chunks).2 := by
    intro hin
    have hx := h2 '\n' hin
    simp [isLineBreak] at hx
  have hF : joinNL (feedContents chunks).1 ++ (feedContents chunks).2 = joinNL ls := by
    rw [h1, ← hcat]
    simp [joinNL]
  have hA1 : splitNLTail (joinNL (feedContents chunks).1 ++ (feedContents chunks).2)
      = ((feedContents chunks).1, (feedContents chunks).2) :=
    splitNLTail_joinNL h3 h2'
  have hA2 : splitNLTail (joinNL ls) = (ls, []) := by
    have h := splitNLTail_joinNL (t := []) hlnl (by simp)
    simpa using h
  rw [hF, hA2] at hA1
  exact hA1.symm

/-- Witness for C1 at a concrete chunking: the input `abc` LF `d` LF split
mid-line across two chunks yields exactly the lines `abc` and `d`. -/
theorem c1_chunk_boundary_invariance_witness :
    feedContents ["ab".data, "c\nd\n".data] = (["abc".data, "d".data], []) :=
  c1_chunk_boundary_invariance _ _ (by decide) (by decide) (by decide)

theorem append_pending_free (cap : Nat) (ts : List Char) (b : LogBuffer) (text : List Char)
    (hp : '\n' ∉ b.pending) : '\n' ∉ (b.append cap ts text).2.pending := by
  by_cases h0 : text = []
  · simpa [LogBuffer.append, h0] using hp
  · by_cases hnl : '\n' ∈ b.pending ++ normalizeText text
    · simp only [LogBuffer.append, if_neg h0, if_pos hnl]
      exact splitData_snd_nl_free (b.pending ++ normalizeText text)
    · simp only [LogBuffer.append, if_neg h0, if_neg hnl]
      exact hnl

theorem read_file_state (fs : FSView) (b : LogBuffer) :
    (b.read_file fs).2.pending = b.pending ∧ (b.read_file fs).2.lines = b.lines := by
  rcases b with ⟨bl, bc, bm, bp⟩
  rcases fs with ⟨pres, stat, rok, cont, mt⟩
  cases pres <;> cases stat <;> cases rok <;> rcases bc with _ | c <;>
    simp [LogBuffer.read_file, LogBuffer.read_fresh] <;> split <;> simp

/-- Claim C8: partial-fragment invariant.  Every `LogBuffer` operation
preserves the invariant that the stored pending fragment contains no newline;
and when `append` receives input whose combination with the existing fragment
contains no newline, the whole combination is stored as the new fragment and
`append` returns a pair of empty strings. -/
theorem c8_partial_invariant :
    (∀ (cap : Nat) (b : LogBuffer) (op : LBOp), '\n' ∉ b.pending →
        '\n' ∉ (applyOp cap b op).pending)
    ∧ (∀ (cap : Nat) (ts : List Char) (b : LogBuffer) (text : List Char),
        '\n' ∉ b.pending ++ normalizeText text →
        b.append cap ts text
          = (([], []), { b with pending := b.pending ++ normalizeText text })) := by
  constructor
  · intro cap b op hp
    cases op with
    | appendOp ts text => exact append_pending_free cap ts b text hp
    | clearOp truncOk => simpa [applyOp, LogBuffer.clear] using hp
    | getRecentOp => exact hp
    | searchOp fs pat => rw [applyOp, (read_file_state fs b).1]; exact hp
    | loadChunkOp fs e size => rw [applyOp, (read_file_state fs b).1]; exact hp
    | lineCountOp fs => rw [applyOp, (read_file_state fs b).1]; exact hp
  · intro cap ts b text hcomb
    by_cases h0 : text = []
    · subst h0
      simp [LogBuffer.append, normalizeText, collapseCRLF]
    · simp [LogBuffer.append, h0, hcomb]

/-- Witness for C8 at a concrete state and operation. -/
theorem c8_partial_invariant_witness :
    '\n' ∉ (applyOp 5 initLB (LBOp.appendOp "T".data "ab".data)).pending
    ∧ LogBuffer.append 5 "T".data initLB "ab".data
        = (([], []), { initLB with pending := initLB.pending ++ normalizeText "ab".data }) :=
  ⟨c8_partial_invariant.1 5 initLB (LBOp.appendOp "T".data "ab".data) (by decide),
   c8_partial_invariant.2 5 "T".data initLB "ab".data (by decide)⟩

theorem length_dequeAppend {α : Type _} (cap : Nat) (d : List α) (x : α) :
    (dequeAppend cap d x).length = (d.length + 1) - ((d.length + 1) - cap) := by
  simp [dequeAppend]

theorem foldl_dequeAppend_le {α β : Type _} (cap : Nat) (g : β → α) (xs : List β) :
    ∀ d : List α, d.length ≤ cap →
      (xs.foldl (fun r c => dequeAppend cap r (g c)) d).length ≤ cap := by
  induction xs with
  | nil => intro d hd; exact hd
  | cons x xs ih =>
    intro d hd
    rw [List.foldl_cons]
    apply ih
    rw [length_dequeAppend]
    omega

theorem foldl_dequeAppend {α : Type _} (cap : Nat) (xs : List α) :
    ∀ d : List α, d.length ≤ cap →
      xs.foldl (dequeAppend cap) d = (d ++ xs).drop (d.length + xs.length - cap) := by
  induction xs with
  | nil =>
    intro d hd
    simp [Nat.sub_eq_zero_of_le hd]
  | cons x xs ih =>
    intro d hd
    rw [List.foldl_cons]
    have h1 : (dequeAppend cap d x).length ≤ cap := by
      rw [length_dequeAppend]; omega
    rw [ih _ h1, length_dequeAppend]
    rw [show dequeAppend cap d x = (d ++ [x]).drop (d.length + 1 - cap) from by
      simp [dequeAppend]]
    rw [← List.drop_append_of_le_length (by simp)]
    rw [List.drop_drop]
    rw [show (d ++ [x]) ++ xs = d ++ x :: xs from by simp]
    congr 1
    simp only [List.length_cons]
    omega

theorem append_lines_le (cap : Nat) (ts : List Char) (b : LogBuffer) (text : List Char)
    (hb : b.lines.length ≤ cap) : (b.append cap ts text).2.lines.length ≤ cap := by
  by_cases h0 : text = []
  · simpa [LogBuffer.append, h0] using hb
  · by_cases hnl : '\n' ∈ b.pending ++ normalizeText text
    · simp only [LogBuffer.append, if_neg h0, if_pos hnl]
      exact foldl_dequeAppend_le cap (renderDisp ts) _ b.lines hb
    · simp only [LogBuffer.append, if_neg h0, if_neg hnl]
      exact hb

theorem append_single_line (cap : Nat) (ts : List Char) (b : LogBuffer) (l : List Char)
    (hb : b.pending = []) (hlb : ∀ c ∈ l, isLineBreak c = false) :
    (b.append cap ts (l ++ ['\n'])).2.lines = dequeAppend cap b.lines (renderDisp ts l)
    ∧ (b.append cap ts (l ++ ['\n'])).2.pending = [] := by
  have hl : '\n' ∉ l := by
    intro hin
    have hx := hlb '\n' hin
    simp [isLineBreak] at hx
  have hr : '\r' ∉ l := by
    intro hin
    have hx := hlb '\r' hin
    simp [isLineBreak] at hx
  have h0 : ¬ (l ++ ['\n']) = [] := by simp
  have hr' : '\r' ∉ l ++ ['\n'] := by
    intro hm
    rcases List.mem_append.mp hm with h | h
    · exact hr h
    · simp at h
  have hbk : ∀ c ∈ l ++ ['\n'], isLineBreak c = true → c = '\n' := by
    intro c hc hbc
    rcases List.mem_append.mp hc with h | h
    · exact absurd (hlb c h) (by simp [hbc])
    · simpa using h
  have hd : b.pending ++ normalizeText (l ++ ['\n']) = l ++ ['\n'] := by
    rw [hb, normalizeText_eq_self hr', List.nil_append]
  have hnl : '\n' ∈ b.pending ++ normalizeText (l ++ ['\n']) := by
    rw [hd]; simp
  have hsd : splitData (b.pending ++ normalizeText (l ++ ['\n'])) = ([l], []) := by
    rw [hd, splitData_eq (by simp) hbk]
    have h := splitNLTail_line ([] : List Char) hl
    simpa [splitNLTail] using h
  refine ⟨?_, ?_⟩
  all_goals simp only [LogBuffer.append, if_neg h0, if_pos hnl, hsd]
  all_goals simp

theorem append_fold_lines (cap : Nat) (ts : List Char) (ls : List (List Char))
    (hfree : ∀ l ∈ ls, ∀ c ∈ l, isLineBreak c = false) :
    ∀ b : LogBuffer, b.pending = [] →
      (ls.foldl (fun st l => (st.append cap ts (l ++ ['\n'])).2) b).lines
        = (ls.map (renderDisp ts)).foldl (dequeAppend cap) b.lines := by
  induction ls with
  | nil => intro b _; rfl
  | cons l ls ih =>
    intro b hb
    have h1 := hfree l (List.mem_cons_self l ls)
    obtain ⟨hlines, hpend⟩ := append_single_line cap ts b l hb h1
    rw [List.foldl_cons, List.map_cons, List.foldl_cons,
      ih (fun x hx => hfree x (List.mem_cons_of_mem l hx)) _ hpend, hlines]

/-- Claim C3: ring-buffer bound and FIFO eviction.  After any sequence of
operations the ring holds at most `cap = MAX_LOG_LINES` entries; and after
appending `cap + k` complete lines (one `append` call per newline-terminated
line whose content contains no character Python `splitlines` treats as a line
boundary) the ring contains exactly the renderings of the last `cap` lines in
insertion order, the oldest having been evicted first. -/
theorem c3_ring_bound_and_fifo (cap k : Nat) (ts : List Char) (ops : List LBOp)
    (ls : List (List Char)) (hfree : ∀ l ∈ ls, ∀ c ∈ l, isLineBreak c = false)
    (hlen : ls.length = cap + k) :
    (applyOps cap ops).lines.length ≤ cap
    ∧ (ls.foldl (fun st l => (st.append cap ts (l ++ ['\n'])).2) initLB).lines
        = (ls.map (renderDisp ts)).drop k := by
  constructor
  · suffices h : ∀ (b : LogBuffer), b.lines.length ≤ cap →
        ∀ ops' : List LBOp, (ops'.foldl (applyOp cap) b).lines.length ≤ cap from
      h initLB (by simp [initLB]) ops
    intro b hb ops'
    induction ops' generalizing b with
    | nil => exact hb
    | cons op ops' ih =>
      rw [List.foldl_cons]
      apply ih
      cases op with
      | appendOp ts' text => exact append_lines_le cap ts' b text hb
      | clearOp truncOk => simp [applyOp, LogBuffer.clear]
      | getRecentOp => exact hb
      | searchOp fs pat =>
        simp only [applyOp]
        rw [(read_file_state fs b).2]
        exact hb
      | loadChunkOp fs e size =>
        simp only [applyOp]
        rw [(read_file_state fs b).2]
        exact hb
      | lineCountOp fs =>
        simp only [applyOp]
        rw [(read_file_state fs b).2]
        exact hb
  · rw [append_fold_lines cap ts ls hfree initLB rfl]
    have h0 : initLB.lines = [] := rfl
    rw [h0, foldl_dequeAppend cap (ls.map (renderDisp ts)) [] (by simp)]
    simp [hlen]

/-- Witness for C3: capacity 2, three appended lines, and a small operation
sequence. -/
theorem c3_ring_bound_and_fifo_witness :
    (applyOps 2 [LBOp.appendOp "T".data "x\ny\n".data, LBOp.clearOp true]).lines.length ≤ 2
    ∧ (["a".data, "b".data, "c".data].foldl
        (fun st l => (st.append 2 "T".data (l ++ ['\n'])).2) initLB).lines
        = (["a".data, "b".data, "c".data].map (renderDisp "T".data)).drop 1 :=
  c3_ring_bound_and_fifo 2 1 "T".data
    [LBOp.appendOp "T".data "x\ny\n".data, LBOp.clearOp true]
    ["a".data, "b".data, "c".data] (by decide) (by decide)

/-- Claim C4 counterexample: with the queue at capacity and empty text,
`write` neither enqueues nor increments the drop counter, contradicting the
claim that the counter is incremented precisely when the queue is at
capacity. -/
theorem c4_nonblocking_write_counterexample :
    1 ≤ (AsyncFileWriter.mk [("a", ['x'])] 0).q.length
    ∧ (AsyncFileWriter.write 1 (AsyncFileWriter.mk [("a", ['x'])] 0) "b" []).dropped = 0
    ∧ (AsyncFileWriter.write 1 (AsyncFileWriter.mk [("a", ['x'])] 0) "b" []).q
        = [("a", ['x'])] := by decide

/-- Claim C4 (amended): for nonempty text, `write` is a total function (the
model never raises) that increments the drop counter without enqueueing
exactly when the queue is at capacity, and otherwise appends the job to the
queue; empty text is a no-op (neither enqueued nor counted). -/
theorem c4_nonblocking_write (cap : Nat) (w : AsyncFileWriter) (p : String)
    (t : List Char) (ht : t ≠ []) :
    (cap ≤ w.q.length → w.write cap p t = { w with dropped := w.dropped + 1 })
    ∧ (w.q.length < cap → w.write cap p t = { w with q := w.q ++ [(p, t)] }) := by
  constructor
  · intro hfull
    simp [AsyncFileWriter.write, ht, hfull]
  · intro hlt
    simp [AsyncFileWriter.write, ht, Nat.not_le.mpr hlt]

/-- Witness for C4 at a concrete full queue and nonempty text. -/
theorem c4_nonblocking_write_witness :
    AsyncFileWriter.write 1 (AsyncFileWriter.mk [("a", ['x'])] 0) "b" ['z']
      = { AsyncFileWriter.mk [("a", ['x'])] 0 with
          dropped := (AsyncFileWriter.mk [("a", ['x'])] 0).dropped + 1 } :=
  (c4_nonblocking_write 1 (AsyncFileWriter.mk [("a", ['x'])] 0) "b" ['z']
    (by decide)).1 (by decide)

/-- Claim C2 counterexample: the drop counter is global, not per destination.
In `c2Trace` a job for file A is dropped, yet the annotation is flushed into
file B (the next successful write to any destination); the next successful
write to A itself appends no annotation, so A's file never records the drop,
contradicting the claimed co-location. -/
theorem c2_drop_flush_counterexample :
    ((((AsyncFileWriter.mk [] 0).write 1 "B" "b\n".data).write 1 "A" "a\n".data).dropped = 1)
    ∧ c2Trace.2 "A" = "a2\n".data
    ∧ isSubstr "[log-writer]".data (c2Trace.2 "A") = false
    ∧ c2Trace.2 "B" = "b\n".data ++ annotLine 1
    ∧ c2Trace.1.dropped = 0 := by decide

/-- Claim C2 (amended): whenever any write jobs have been dropped because the
queue was full, the accumulated (global) drop count is appended as a single
diagnostic line into the destination of the next successful write, whichever
destination that is, and the counter is reset to zero at that point (even when
the annotation write itself fails). -/
theorem c2_drop_flush (annotOk : Bool) (w : AsyncFileWriter)
    (fsw : String → List Char) (p : String) (t : List Char)
    (rest : List (String × List Char)) (hq : w.q = (p, t) :: rest)
    (hd : 0 < w.dropped) :
    (AsyncFileWriter.run_once true annotOk w fsw).1.dropped = 0
    ∧ (AsyncFileWriter.run_once true annotOk w fsw).1.q = rest
    ∧ (annotOk = true →
        (AsyncFileWriter.run_once true annotOk w fsw).2 p = fsw p ++ t ++ annotLine w.dropped)
    ∧ (annotOk = false →
        (AsyncFileWriter.run_once true annotOk w fsw).2 p = fsw p ++ t) := by
  rcases w with ⟨q, dropped⟩
  simp only at hq
  subst hq
  cases annotOk <;> simp [AsyncFileWriter.run_once, hd]

/-- Witness for C2 (amended) at a concrete writer state with two pending
drops. -/
theorem c2_drop_flush_witness :
    (AsyncFileWriter.run_once true true (AsyncFileWriter.mk [("A", "a\n".data)] 2)
        (fun _ => [])).1.dropped = 0
    ∧ (AsyncFileWriter.run_once true true (AsyncFileWriter.mk [("A", "a\n".data)] 2)
        (fun _ => [])).2 "A"
      = (fun _ => ([] : List Char)) "A" ++ "a\n".data ++ annotLine 2 :=
  ⟨(c2_drop_flush true (AsyncFileWriter.mk [("A", "a\n".data)] 2) (fun _ => [])
      "A" "a\n".data [] rfl (by decide)).1,
   (c2_drop_flush true (AsyncFileWriter.mk [("A", "a\n".data)] 2) (fun _ => [])
      "A" "a\n".data [] rfl (by decide)).2.2.1 rfl⟩

/-- Claim C9 counterexample: `clear` does not reset the pending partial
fragment.  Starting from a state whose fragment is `abc`, clear followed by
`append` of `x` LF renders the single line `abcx` — residue from prior content
— instead of a line for `x` alone. -/
theorem c9_clear_counterexample :
    LogBuffer.get_recent
        (LogBuffer.append 5 "T".data
          (LogBuffer.clear true (LogBuffer.mk [renderDisp "T".data "old".data] none 0 "abc".data)
            "f".data).1
          "x\n".data).2
      = renderDisp "T".data "abcx".data
    ∧ LogBuffer.get_recent
        (LogBuffer.append 5 "T".data
          (LogBuffer.clear true (LogBuffer.mk [renderDisp "T".data "old".data] none 0 "abc".data)
            "f".data).1
          "x\n".data).2
      ≠ renderDisp "T".data "x".data := by decide

/-- Claim C9 (amended): `clear` always empties the ring and drops the cache,
even when truncating the backing file fails (the failure is swallowed and only
the file keeps its old content); and provided no partial fragment is pending
at the time of clear, `clear` followed by `append` of one newline-terminated
line leaves `get_recent` returning exactly that one rendered line with no
residue. -/
theorem c9_clear_resilience (cap : Nat) (ts : List Char) (b : LogBuffer)
    (fileContent : List Char) (truncOk : Bool) (l : List Char)
    (hcap : 0 < cap) (hpend : b.pending = [])
    (hlb : ∀ c ∈ l, isLineBreak c = false) :
    (b.clear truncOk fileContent).1.lines = []
    ∧ (b.clear truncOk fileContent).1.cache = none
    ∧ (truncOk = true → (b.clear truncOk fileContent).2 = [])
    ∧ (truncOk = false → (b.clear truncOk fileContent).2 = fileContent)
    ∧ LogBuffer.get_recent ((b.clear truncOk fileContent).1.append cap ts (l ++ ['\n'])).2
        = renderDisp ts l := by
  refine ⟨rfl, rfl, ?_, ?_, ?_⟩
  · intro h; simp [LogBuffer.clear, h]
  · intro h; simp [LogBuffer.clear, h]
  · have hpend' : (b.clear truncOk fileContent).1.pending = [] := by
      simpa [LogBuffer.clear] using hpend
    obtain ⟨hlines, _⟩ :=
      append_single_line cap ts (b.clear truncOk fileContent).1 l hpend' hlb
    have hclines : (b.clear truncOk fileContent).1.lines = [] := rfl
    simp only [LogBuffer.get_recent, hlines, hclines]
    simp [dequeAppend, Nat.sub_eq_zero_of_le hcap]

/-- Witness for C9 (amended): the spec's own scenario with a clean pending
fragment. -/
theorem c9_clear_resilience_witness :
    LogBuffer.get_recent
        ((LogBuffer.clear false (LogBuffer.mk ["r".data] none 7 []) "fc".data).1.append
          3 "T".data ("x".data ++ ['\n'])).2
      = renderDisp "T".data "x".data :=
  (c9_clear_resilience 3 "T".data (LogBuffer.mk ["r".data] none 7 []) "fc".data false
    "x".data (by decide) rfl (by decide)).2.2.2.2

/-- Claim C5 counterexample: on a 1-line history, `load_chunk(end := 5,
size := 1)` returns new_start 0 (empty result), not `max 0 (end - size) = 4`
as the claim's unconditional formula requires. -/
theorem c5_load_chunk_counterexample :
    (0 : Int) < 5 ∧ (0 : Int) < 1
    ∧ (loadChunkLines [['a']] 5 1).2 ≠ max 0 ((5 : Int) - 1) := by decide

/-- Claim C5 (amended): for `0 < end ≤ n` and `size > 0` on an `n`-line
history, `load_chunk` returns the lines with indices
`max 0 (end - size) .. end - 1`, each re-colorized and newline-terminated,
together with `new_start = max 0 (end - size)`; it returns empty when
`end ≤ 0` or no lines exist, and requests whose whole range lies beyond the
history also return empty with new_start 0 (see C10). -/
theorem c5_load_chunk (lines : List (List Char)) (e size : Int)
    (he : 0 < e) (hsize : 0 < size) (hn : e ≤ (lines.length : Int)) :
    loadChunkLines lines e size
      = ((((lines.drop (max 0 (e - size)).toNat).take
            (e.toNat - (max 0 (e - size)).toNat)).map (fun l => colorize l ++ ['\n'])).flatten,
         max 0 (e - size)) := by
  have hne : lines ≠ [] := by
    intro h
    subst h
    simp at hn
    omega
  have hnot : ¬ (lines = [] ∨ e ≤ 0) := by
    push_neg
    exact ⟨hne, he⟩
  simp only [loadChunkLines, if_neg hnot]
  rw [List.drop_take]
  have h1 : (max 0 (e - size)).toNat < e.toNat := by omega
  have h2 : e.toNat ≤ lines.length := by omega
  have hchunk : ¬ ((lines.drop (max 0 (e - size)).toNat).take
      (e.toNat - (max 0 (e - size)).toNat) = []) := by
    intro hnil
    have hlen := congrArg List.length hnil
    simp [List.length_take, List.length_drop] at hlen
    omega
  rw [if_neg hchunk]

/-- Witness for C5 (amended): the spec's 10-line example with end 10,
size 5. -/
theorem c5_load_chunk_witness :
    loadChunkLines ((List.range 10).map (fun i => (toString i).data)) 10 5
      = ("5\n6\n7\n8\n9\n".data, 5) := by
  rw [c5_load_chunk ((List.range 10).map (fun i => (toString i).data)) 10 5
    (by decide) (by decide) (by decide)]
  decide

/-- Claim C10: out-of-range forward requests also yield empty.  Whenever the
requested window starts at or beyond the end of the history
(`n <= max 0 (end - size)`), `load_chunk` returns `("", 0)`, so the spec's
empty-result conditions (`end <= 0` or no lines) are not exhaustive. -/
theorem c10_load_chunk_out_of_range (lines : List (List Char)) (e size : Int)
    (h : (lines.length : Int) ≤ max 0 (e - size)) :
    loadChunkLines lines e size = ([], 0) := by
  by_cases h0 : lines = [] ∨ e ≤ 0
  · simp [loadChunkLines, h0]
  · simp only [loadChunkLines, if_neg h0]
    have hchunk : (lines.take e.toNat).drop (max 0 (e - size)).toNat = [] := by
      apply List.drop_eq_nil_of_le
      have hm : lines.length ≤ (max 0 (e - size)).toNat := by
        have h2 := Int.toNat_le_toNat h
        simpa using h2
      have hlen2 : (lines.take e.toNat).length ≤ lines.length := by
        rw [List.length_take]
        omega
      omega
    rw [if_pos hchunk]

/-- Witness for C10: a 1-line history queried with end 20, size 5. -/
theorem c10_load_chunk_out_of_range_witness :
    loadChunkLines [['a']] 20 5 = ([], 0) :=
  c10_load_chunk_out_of_range [['a']] 20 5 (by decide)

theorem isSubstr_nil (l : List Char) : isSubstr [] l = true := by
  cases l with
  | nil => rfl
  | cons c rest => simp [isSubstr, List.isPrefixOf]

theorem isSubstr_iff {p l : List Char} :
    isSubstr p l = true ↔ ∃ a b, l = a ++ p ++ b := by
  induction l with
  | nil =>
    simp only [isSubstr, List.isEmpty_iff]
    constructor
    · intro h
      exact ⟨[], [], by simp [h]⟩
    · rintro ⟨a, b, hab⟩
      rcases List.append_eq_nil.mp (List.append_eq_nil.mp hab.symm).1 with ⟨_, hp⟩
      exact hp
  | cons c rest ih =>
    simp only [isSubstr, Bool.or_eq_true]
    constructor
    · rintro (h | h)
      · obtain ⟨tl, htl⟩ := List.isPrefixOf_iff_prefix.mp h
        exact ⟨[], tl, by simp [htl]⟩
      · obtain ⟨a, b, hab⟩ := ih.mp h
        exact ⟨c :: a, b, by simp [hab]⟩
    · rintro ⟨a, b, hab⟩
      cases a with
      | nil =>
        left
        apply List.isPrefixOf_iff_prefix.mpr
        exact ⟨b, by simpa using hab.symm⟩
      | cons a0 a' =>
        right
        apply ih.mpr
        refine ⟨a', b, ?_⟩
        have h2 := hab
        simp only [List.cons_append, List.cons.injEq] at h2
        exact h2.2

/-- Claim C6: search semantics.  `search` returns exactly the historical lines
containing the pattern as a case-insensitive substring (`isSubstr` on the
lowercased text, characterized as substring containment), in order, each
re-colorized and newline-terminated, together with the count of those lines;
the empty pattern matches every line; and on the lines `INFO start`,
`ERROR boom`, `info ok` the pattern `error` yields exactly one match. -/
theorem c6_search_semantics (lines : List (List Char)) (pat : List Char) :
    ((searchLines lines pat).2
        = (lines.filter (fun l => isSubstr (pat.map Char.toLower) (l.map Char.toLower))).length
      ∧ (searchLines lines pat).1
        = ((lines.filter (fun l => isSubstr (pat.map Char.toLower) (l.map Char.toLower))).map
            (fun l => colorize l ++ ['\n'])).flatten)
    ∧ (∀ q l : List Char, isSubstr q l = true ↔ ∃ a b, l = a ++ q ++ b)
    ∧ (pat = [] → (searchLines lines pat).2 = lines.length)
    ∧ (searchLines ["INFO start".data, "ERROR boom".data, "info ok".data] "error".data).2
        = 1 := by
  have hmain : (searchLines lines pat).2
      = (lines.filter (fun l => isSubstr (pat.map Char.toLower) (l.map Char.toLower))).length
      ∧ (searchLines lines pat).1
      = ((lines.filter (fun l => isSubstr (pat.map Char.toLower) (l.map Char.toLower))).map
          (fun l => colorize l ++ ['\n'])).flatten := by
    by_cases h :
        (lines.filter (fun l => isSubstr (pat.map Char.toLower) (l.map Char.toLower))).isEmpty
    · have hnil := List.isEmpty_iff.mp h
      constructor
      · simp [searchLines, h, hnil]
      · simp [searchLines, h, hnil]
    · constructor
      · simp [searchLines, h]
      · simp [searchLines, h]
  refine ⟨hmain, fun q l => isSubstr_iff, ?_, by decide⟩
  intro hpat
  subst hpat
  rw [hmain.1]
  simp [isSubstr_nil]

/-- Claim C7 counterexample: with a valid nonempty cache whose mtime matches,
`line_count` returns the cached file line count even when the file content is
unreadable (`read_text` would raise), instead of falling back to the ring as
the claim requires for an unreadable file. -/
theorem c7_line_count_counterexample :
    LogBuffer.line_count (FSView.mk true true false "a\nb\n".data 7)
        (LogBuffer.mk [] (some [['a'], ['b']]) 7 []) = 2
    ∧ (LogBuffer.mk [] (some [['a'], ['b']]) 7 []).lines.length = 0
    ∧ (FSView.mk true true false "a\nb\n".data 7).present = true
    ∧ (FSView.mk true true false "a\nb\n".data 7).readOk = false := by decide

/-- Claim C7 (amended): `line_count` is a total function returning the on-disk
line count when the file exists, `stat` succeeds and either the content is
readable or a nonempty mtime-matching cache is held (assuming the cache is
coherent with the file content); it returns the ring line count when the file
is missing, `stat` fails, or the content is unreadable with no valid cache. -/
theorem c7_line_count (fs : FSView) (b : LogBuffer)
    (hcoh : ∀ c, b.cache = some c → c ≠ [] → fs.mtime = b.mtime →
      c = splitlinesPlain (normalizeText fs.content)) :
    (fs.present = true → fs.statOk = true → fs.readOk = true →
      LogBuffer.line_count fs b = (splitlinesPlain (normalizeText fs.content)).length)
    ∧ (fs.present = false ∨ fs.statOk = false →
      LogBuffer.line_count fs b = b.lines.length)
    ∧ (fs.present = true → fs.statOk = true →
      ∀ c, b.cache = some c → c ≠ [] → fs.mtime = b.mtime →
        LogBuffer.line_count fs b = (splitlinesPlain (normalizeText fs.content)).length)
    ∧ (fs.present = true → fs.statOk = true → fs.readOk = false →
      (b.cache = none ∨ ∀ c, b.cache = some c → (c = [] ∨ fs.mtime ≠ b.mtime)) →
        LogBuffer.line_count fs b = b.lines.length) := by
  refine ⟨?_, ?_, ?_, ?_⟩
  · intro hp hs hr
    rcases hc : b.cache with _ | c
    · simp [LogBuffer.line_count, LogBuffer.read_file, LogBuffer.read_fresh, hp, hs, hr, hc]
    · by_cases hhit : (!c.isEmpty && (fs.mtime == b.mtime)) = true
      · have hand := hhit
        simp only [Bool.and_eq_true, Bool.not_eq_eq_eq_not, Bool.not_true, beq_iff_eq,
          List.isEmpty_eq_false] at hand
        have hcc := hcoh c hc hand.1 hand.2
        have h1 : ¬ (splitlinesPlain (normalizeText fs.content) = []) := by
          rw [← hcc]; exact hand.1
        simp [LogBuffer.line_count, LogBuffer.read_file, hp, hs, hc, hhit, hcc, h1, hand.2]
      · simp [LogBuffer.line_count, LogBuffer.read_file, LogBuffer.read_fresh, hp, hs, hr,
          hc, hhit]
  · intro h
    rcases h with hp | hs
    · simp [LogBuffer.line_count, LogBuffer.read_file, hp]
    · cases hp2 : fs.present <;>
        simp [LogBuffer.line_count, LogBuffer.read_file, hp2, hs]
  · intro hp hs c hc hne hmt
    have hhit : (!c.isEmpty && (fs.mtime == b.mtime)) = true := by
      simp [List.isEmpty_eq_false, hne, hmt]
    have hcc := hcoh c hc hne hmt
    have h1 : ¬ (splitlinesPlain (normalizeText fs.content) = []) := by
      rw [← hcc]; exact hne
    simp [LogBuffer.line_count, LogBuffer.read_file, hp, hs, hc, hhit, hcc, h1, hmt]
  · intro hp hs hr hnohit
    rcases hc : b.cache with _ | c
    · simp [LogBuffer.line_count, LogBuffer.read_file, LogBuffer.read_fresh, hp, hs, hr, hc]
    · rcases hnohit with hnone | hall
      · rw [hc] at hnone
        cases hnone
      · rcases hall c hc with hce | hmt
        · subst hce
          simp [LogBuffer.line_count, LogBuffer.read_file, LogBuffer.read_fresh, hp, hs, hr, hc]
        · have hhit : (!c.isEmpty && (fs.mtime == b.mtime)) = false := by
            simp [hmt]
          simp [LogBuffer.line_count, LogBuffer.read_file, LogBuffer.read_fresh, hp, hs, hr,
            hc, hhit]

/-- Witness for C7 (amended): a readable two-line file with no cache. -/
theorem c7_line_count_witness :
    LogBuffer.line_count (FSView.mk true true true "a\nb\n".data 1) (LogBuffer.mk [] none 0 [])
      = (splitlinesPlain (normalizeText "a\nb\n".data)).length :=
  (c7_line_count (FSView.mk true true true "a\nb\n".data 1) (LogBuffer.mk [] none 0 [])
    (fun _ hc => Option.noConfusion hc)).1 rfl rfl rfl
